import Mathlib

/-!
Shallow embedding of `bobg/modules` (`each.go`): a directory-tree walker that
finds Go module roots (directories containing a `go.mod` file) and invokes
callbacks with increasing enrichment (`Each`, `EachGomod`, `LoadEach`,
`LoadEachGomod`).

Modelling conventions:
* A directory tree is a `DirTree` (the optional `go.mod` content plus the list
  of subdirectory entries, in directory order).  Non-directory entries other
  than `go.mod` are irrelevant to the code and are not modelled.
* Paths are lists of components; `filepath.Join` is list append; the printed
  form (used in error-wrapping messages) joins components with `/`.
* Go `error` values are `Option GoError`; the sentinels `filepath.SkipDir` and
  `filepath.SkipAll` are `GoError.skipDir` / `GoError.skipAll`; `errors.Wrapf`
  is `GoError.wrapped`; `errors.Join` is `GoError.joinOne` / `GoError.joined`
  (stdlib `errors.Join` wraps a single non-nil argument in a join node too);
  `errors.Is` is `errorsIs`, which unwraps like the Go implementation.
* Callbacks return a list of observable events (their invocations, with the
  arguments they received) next to their Go result; the walker accumulates
  those events in order.  This instruments the side effects of the caller's
  callback and of the external collaborators (`packages.Load`, the parser),
  which is the only way invocation counts and order are observable.
* The external collaborators (`modfile.Parse`/`ParseLax` with the configured
  `VersionFixer` folded in, `os.ReadFile`, `packages.Load`) are universally
  quantified functions, per the spec they are out of scope.
-/

/-- Model of Go `error` values as used by `each.go`:
sentinels, message errors from callbacks/collaborators, `errors.Wrapf`
wrapping, `PackageLoadError`, and `errors.Join` results. -/
inductive GoError where
  | skipDir : GoError
  | skipAll : GoError
  | msg : String → GoError
  | wrapped : String → GoError → GoError
  | pkgLoadE : String → GoError → GoError
  | joinOne : GoError → GoError
  | joined : GoError → GoError → GoError
deriving DecidableEq, Repr

/-- `errors.Is err target`: the target sentinel is compared at every level of
the unwrap chain; `wrapped`/`pkgLoadE`/`joinOne` unwrap to their inner error,
a join of two errors is searched on both sides. -/
def errorsIs : GoError → GoError → Bool
  | .wrapped _ e, t => errorsIs e t
  | .pkgLoadE _ e, t => errorsIs e t
  | .joinOne e, t => errorsIs e t
  | .joined a b, t => errorsIs a t || errorsIs b t
  | e, t => e == t

/-- The wrapping-context messages of an error, outermost first
(the `%s` messages added by `errors.Wrapf` along the unwrap chain). -/
def contexts : GoError → List String
  | .wrapped s e => s :: contexts e
  | .pkgLoadE _ e => contexts e
  | .joinOne e => contexts e
  | .joined a b => contexts a ++ contexts b
  | _ => []

/-- `unwrapsTo e target`: `target` is reachable from `e` by repeatedly
unwrapping (including descending into both sides of joined errors). -/
def unwrapsTo (e target : GoError) : Bool :=
  e == target ||
    match e with
    | .wrapped _ e' => unwrapsTo e' target
    | .pkgLoadE _ e' => unwrapsTo e' target
    | .joinOne e' => unwrapsTo e' target
    | .joined a b => unwrapsTo a target || unwrapsTo b target
    | _ => false

/-- Printed form of a component path, matching `filepath.Join` on the
components. -/
def pathStr (p : List String) : String := String.intercalate "/" p

/-- Model of `packages.Config` (the fields `each.go` reads or writes:
`Mode`, `Dir`, `Tests`).  `reflect.DeepEqual` against the zero config is
structural equality on these fields. -/
structure LoadConfig where
  mode : Nat
  dir : String
  tests : Bool
deriving DecidableEq, Repr

/-- The zero `packages.Config` (`var zeroLoadConfig packages.Config`). -/
def zeroLoadConfig : LoadConfig := { mode := 0, dir := "", tests := false }

/-- `isZeroConfig`: `reflect.DeepEqual(conf, zeroLoadConfig)`. -/
def isZeroConfig (conf : LoadConfig) : Bool := conf == zeroLoadConfig

/-- `DefaultLoadMode`: the bitwise or of the `packages` mode bits used in
`each.go` (NeedName=1, NeedFiles=2, NeedImports=8, NeedDeps=16, NeedTypes=64,
the syntax bit 128, NeedTypesInfo=256, NeedTypesSizes=512, NeedModule=1024,
NeedEmbedFiles=2048, NeedEmbedPatterns=4096; the bits are distinct so the or
is the sum). -/
def DefaultLoadMode : Nat := 1 + 2 + 8 + 16 + 64 + 128 + 256 + 512 + 1024 + 2048 + 4096

/-- `DefaultLoadConfig`: `packages.Config{Mode: DefaultLoadMode}`. -/
def DefaultLoadConfig : LoadConfig := { mode := DefaultLoadMode, dir := "", tests := false }

/-- Model of the `Walker` struct.  `VersionFixer` is not modelled as data:
the parse collaborators passed to `EachGomod` stand for
`modfile.Parse`/`modfile.ParseLax` with the configured fixer folded in. -/
structure Walker where
  includeVendor : Bool := false
  includeTestdata : Bool := false
  parseLax : Bool := false
  loadConfig : LoadConfig := zeroLoadConfig
  failOnPackageErrors : Bool := false
deriving DecidableEq, Repr

mutual
/-- A directory: optional `go.mod` content, and the subdirectory entries in
directory order. -/
inductive DirTree where
  | node (gomod : Option String) (children : Forest) : DirTree

/-- The subdirectory entries of a directory: each carries its entry name. -/
inductive Forest where
  | nil : Forest
  | cons (name : String) (tree : DirTree) (rest : Forest) : Forest
end

/-- The `go.mod` content (if any) at the root of a tree. -/
def DirTree.gomod : DirTree → Option String
  | .node g _ => g

/-- The child entries of the root of a tree. -/
def DirTree.children : DirTree → Forest
  | .node _ cs => cs

/-- The entry names of a forest, in order. -/
def Forest.names : Forest → List String
  | .nil => []
  | .cons n _ rest => n :: rest.names

mutual
/-- Well-formedness of a directory tree: sibling entry names are distinct at
every level (as in a real filesystem directory listing). -/
def DirTree.wf : DirTree → Bool
  | .node _ cs => cs.wfF

/-- Well-formedness of a forest (see `DirTree.wf`). -/
def Forest.wfF : Forest → Bool
  | .nil => true
  | .cons n t rest => !(rest.names.contains n) && t.wf && rest.wfF
end

/-- `strings.HasPrefix pre s`, on the character sequences of the strings. -/
def strHasPre (pre s : String) : Bool := pre.data.isPrefixOf s.data

/-- The entry-skipping test of the walker's loop body, in source order:
names beginning with `.` or `_` are skipped; `vendor` is skipped unless
`IncludeVendor`; `testdata` is skipped unless `IncludeTestdata`. -/
def skipName (w : Walker) (n : String) : Bool :=
  strHasPre "." n || strHasPre "_" n ||
    (!w.includeVendor && n == "vendor") || (!w.includeTestdata && n == "testdata")

mutual
/-- `Walker.each`: stat `dir/go.mod`; if present invoke the callback and act
on its result (`SkipDir` prunes the branch, any other non-nil error — SkipAll
included — is wrapped with `"in <dir>"` and aborts); then recurse into each
non-skipped subdirectory entry, aborting on the first error.  The first
component accumulates the events emitted by the callback, in order. -/
def Walker.each (w : Walker) (g : List String → List ε × Option GoError) :
    DirTree → List String → List ε × Option GoError
  | .node gm cs, path =>
    match gm with
    | none => w.eachF g cs path
    | some _ =>
      match g path with
      | (ev, none) =>
        let (tr, r) := w.eachF g cs path
        (ev ++ tr, r)
      | (ev, some e) =>
        if errorsIs e .skipDir then (ev, none)
        else (ev, some (.wrapped ("in " ++ pathStr path) e))

/-- The subdirectory loop of `Walker.each` (the `for _, entry := range
entries` body): skip entries per `skipName`, otherwise recurse into
`filepath.Join(dir, name)`, returning the first error. -/
def Walker.eachF (w : Walker) (g : List String → List ε × Option GoError) :
    Forest → List String → List ε × Option GoError
  | .nil, _ => ([], none)
  | .cons n t rest, path =>
    if skipName w n then w.eachF g rest path
    else
      match w.each g t (path ++ [n]) with
      | (tr, some e) => (tr, some e)
      | (tr, none) =>
        let (tr2, r) := w.eachF g rest path
        (tr ++ tr2, r)
end

/-- `Walker.Each`: run `each` and absorb a `filepath.SkipAll` result into a
clean `nil` return. -/
def Walker.Each (w : Walker) (g : List String → List ε × Option GoError)
    (t : DirTree) (path : List String) : List ε × Option GoError :=
  let (tr, r) := w.each g t path
  (tr,
    match r with
    | some e => if errorsIs e .skipAll then none else some e
    | none => none)

/-- `Walker.each` with a plain callback (`func(string) error`), recording the
visited directory as the event of each invocation. -/
def Walker.eachP (w : Walker) (cb : List String → Option GoError)
    (t : DirTree) (path : List String) : List (List String) × Option GoError :=
  w.each (fun q => ([q], cb q)) t path

/-- `Walker.Each` with a plain callback (see `Walker.eachP`). -/
def Walker.EachP (w : Walker) (cb : List String → Option GoError)
    (t : DirTree) (path : List String) : List (List String) × Option GoError :=
  w.Each (fun q => ([q], cb q)) t path

mutual
/-- The directories a traversal visits (i.e. invokes its callback at) when
the callback never returns an error: the module roots reachable under the
pruning rules, in depth-first pre-order. -/
def gomodVisit (w : Walker) : DirTree → List String → List (List String)
  | .node gm cs, path =>
    (if gm.isSome then [path] else []) ++ gomodVisitF w cs path

/-- Forest version of `gomodVisit`. -/
def gomodVisitF (w : Walker) : Forest → List String → List (List String)
  | .nil, _ => []
  | .cons n t rest, path =>
    (if skipName w n then [] else gomodVisit w t (path ++ [n])) ++ gomodVisitF w rest path
end

mutual
/-- The number of directories in a tree that contain a `go.mod` file
(no pruning applied). -/
def countGomod : DirTree → Nat
  | .node gm cs => (if gm.isSome then 1 else 0) + countGomodF cs

/-- Forest version of `countGomod`. -/
def countGomodF : Forest → Nat
  | .nil => 0
  | .cons _ t rest => countGomod t + countGomodF rest
end

/-- `Walker.eachF` with a plain callback (see `Walker.eachP`). -/
def Walker.eachPF (w : Walker) (cb : List String → Option GoError)
    (cs : Forest) (path : List String) : List (List String) × Option GoError :=
  w.eachF (fun q => ([q], cb q)) cs path

/-- Model of a `packages.Package` as read by `each.go`: its `PkgPath` and its
`Errors` list (error messages). -/
structure Package where
  pkgPath : String
  errors : List String
deriving DecidableEq, Repr

/-- The observable events of a traversal with adapters, over manifest type
`μ`: an invocation of `packages.Load` (with the config it received), a
successful manifest parse, and the user-callback invocations of the three
adapter entry points with the arguments they received. -/
inductive Ev (μ : Type) where
  | loadCall : List String → LoadConfig → Ev μ
  | parsed : List String → μ → Ev μ
  | cb2 : List String → μ → Ev μ
  | cbLoad : List String → List Package → Ev μ
  | cb3 : List String → μ → List Package → Ev μ
deriving DecidableEq

/-- `Walker.withGomod`: read `subdir/go.mod` (a read failure is wrapped with
`"reading <path>"`), parse it with `modfile.Parse` or `modfile.ParseLax`
according to `ParseLax` (a parse failure is wrapped with `"parsing <path>"`),
then invoke the caller's callback with the directory and parsed manifest,
returning its result unchanged.  `parse`/`parseLax` are the external parser
collaborators (the configured `VersionFixer` folded in) and `fsRead` is
`os.ReadFile`; the unused `dir` parameter of the source is dropped.  A
successful parse is recorded as a `parsed` event. -/
def Walker.withGomod (w : Walker) (fsRead : List String → Except String String)
    (parse parseLax : String → String → Except String μ) (subdir : List String)
    (fG : List String → μ → List (Ev μ) × Option GoError) : List (Ev μ) × Option GoError :=
  let gomodPath := subdir ++ ["go.mod"]
  match fsRead gomodPath with
  | .error e => ([], some (.wrapped ("reading " ++ pathStr gomodPath) (.msg e)))
  | .ok data =>
    match (if w.parseLax then parseLax else parse) (pathStr gomodPath) data with
    | .error e => ([], some (.wrapped ("parsing " ++ pathStr gomodPath) (.msg e)))
    | .ok mf =>
      let (ev, r) := fG subdir mf
      (.parsed subdir mf :: ev, r)

/-- `Walker.EachGomod`: `Each` with the callback that parses the `go.mod` at
each discovered module root via `withGomod` before invoking the caller. -/
def Walker.EachGomod (w : Walker) (fsRead : List String → Except String String)
    (parse parseLax : String → String → Except String μ) (t : DirTree) (root : List String)
    (fG : List String → μ → List (Ev μ) × Option GoError) : List (Ev μ) × Option GoError :=
  w.Each (fun subdir => w.withGomod fsRead parse parseLax subdir fG) t root

/-- One step of the `errors.Join(err, e)` accumulation in `LoadEach`:
stdlib `Join` wraps the non-nil arguments in a join node. -/
def goJoin (acc : Option GoError) (e : GoError) : GoError :=
  match acc with
  | none => .joinOne e
  | some a => .joined a e

/-- The inner loop of the `FailOnPackageErrors` accumulation: join a
`PackageLoadError{PkgPath, Err}` onto the accumulator for each error of one
package. -/
def joinPkgErrs (pkg : Package) (acc : Option GoError) : Option GoError :=
  pkg.errors.foldl (fun a pe => some (goJoin a (.pkgLoadE pkg.pkgPath (.msg pe)))) acc

/-- The error accumulated by the `FailOnPackageErrors` loop of `LoadEach`:
for each package, for each of its errors, join a
`PackageLoadError{PkgPath, Err}` onto the accumulator. -/
def pkgsJoinedError (pkgs : List Package) : Option GoError :=
  pkgs.foldl (fun acc pkg => joinPkgErrs pkg acc) none

/-- The `packages.Config` that `LoadEach` builds before walking, in source
order: start from `w.LoadConfig`; if it is the zero config replace it by
`DefaultLoadConfig`; if the mode is then zero replace the mode by
`DefaultLoadMode`; finally set `Dir` to the directory passed to `LoadEach`
(the traversal root). -/
def loadEachConf (w : Walker) (root : List String) : LoadConfig :=
  let conf := w.loadConfig
  let conf := if isZeroConfig conf then DefaultLoadConfig else conf
  let conf := if conf.mode == 0 then { conf with mode := DefaultLoadMode } else conf
  { conf with dir := pathStr root }

/-- The per-root closure of `LoadEach`: invoke `packages.Load` (the external
collaborator `load`; its invocation is recorded as a `loadCall` event with
the config it received — note the config, `Dir` included, does not depend on
`subdir`), on loader failure abort wrapped with
`"loading packages in <subdir>"`, with `FailOnPackageErrors` set return the
joined per-package errors when there are any, and otherwise invoke the
caller's callback with the directory and loaded packages. -/
def loadEachStep (w : Walker) (load : LoadConfig → Except String (List Package))
    (conf : LoadConfig) (fL : List String → List Package → List (Ev μ) × Option GoError)
    (subdir : List String) : List (Ev μ) × Option GoError :=
  match load conf with
  | .error e =>
    ([.loadCall subdir conf], some (.wrapped ("loading packages in " ++ pathStr subdir) (.msg e)))
  | .ok pkgs =>
    if w.failOnPackageErrors then
      match pkgsJoinedError pkgs with
      | some err => ([.loadCall subdir conf], some err)
      | none =>
        let (ev, r) := fL subdir pkgs
        (.loadCall subdir conf :: ev, r)
    else
      let (ev, r) := fL subdir pkgs
      (.loadCall subdir conf :: ev, r)

/-- `Walker.LoadEach`: build the config (see `loadEachConf`), then `Each`
with the per-root closure `loadEachStep`. -/
def Walker.LoadEach (w : Walker) (load : LoadConfig → Except String (List Package))
    (t : DirTree) (root : List String)
    (fL : List String → List Package → List (Ev μ) × Option GoError) :
    List (Ev μ) × Option GoError :=
  let conf := loadEachConf w root
  w.Each (loadEachStep w load conf fL) t root

/-- `Walker.LoadEachGomod`: `LoadEach` whose callback parses the `go.mod`
via `withGomod` and then invokes the three-argument callback with directory,
manifest and packages. -/
def Walker.LoadEachGomod (w : Walker) (load : LoadConfig → Except String (List Package))
    (fsRead : List String → Except String String)
    (parse parseLax : String → String → Except String μ) (t : DirTree) (root : List String)
    (f3 : List String → μ → List Package → List (Ev μ) × Option GoError) :
    List (Ev μ) × Option GoError :=
  w.LoadEach load t root (fun subdir pkgs =>
    w.withGomod fsRead parse parseLax subdir (fun subdir2 mf => f3 subdir2 mf pkgs))

/-! ### Core traversal lemmas -/

theorem Each_fst (w : Walker) (g : List String → List ε × Option GoError)
    (t : DirTree) (path : List String) : (w.Each g t path).1 = (w.each g t path).1 := by
  simp [Walker.Each]

theorem Each_snd_none (w : Walker) (g : List String → List ε × Option GoError)
    (t : DirTree) (path : List String) (h : (w.each g t path).2 = none) :
    (w.Each g t path).2 = none := by
  simp [Walker.Each, h]

mutual
theorem each_benign (w : Walker) (g : List String → List ε × Option GoError) (t : DirTree)
    (path : List String) (h : ∀ q ∈ gomodVisit w t path, (g q).2 = none) :
    w.each g t path = ((gomodVisit w t path).flatMap fun q => (g q).1, none) := by
  cases t with
  | node gm cs =>
    cases gm with
    | none =>
      have hf := eachF_benign w g cs path (by simpa [gomodVisit] using h)
      simp [Walker.each, gomodVisit, hf]
    | some s =>
      have hp : (g path).2 = none := h path (by simp [gomodVisit])
      have hf := eachF_benign w g cs path (fun q hq => h q (by simp [gomodVisit, hq]))
      rcases hgp : g path with ⟨ev, r⟩
      rw [hgp] at hp
      simp only at hp
      subst hp
      simp [Walker.each, gomodVisit, hgp, hf]

theorem eachF_benign (w : Walker) (g : List String → List ε × Option GoError) (cs : Forest)
    (path : List String) (h : ∀ q ∈ gomodVisitF w cs path, (g q).2 = none) :
    w.eachF g cs path = ((gomodVisitF w cs path).flatMap fun q => (g q).1, none) := by
  cases cs with
  | nil => simp [Walker.eachF, gomodVisitF]
  | cons n t rest =>
    by_cases hs : skipName w n = true
    · have hf := eachF_benign w g rest path (by simpa [gomodVisitF, hs] using h)
      simp [Walker.eachF, gomodVisitF, hs, hf]
    · have hb : skipName w n = false := by simpa using hs
      have ht := each_benign w g t (path ++ [n])
        (fun q hq => h q (by simp [gomodVisitF, hb, hq]))
      have hf := eachF_benign w g rest path
        (fun q hq => h q (by simp [gomodVisitF, hb, hq]))
      simp [Walker.eachF, gomodVisitF, hb, ht, hf]
end

mutual
theorem each_firstErr (w : Walker) (g : List String → List ε × Option GoError) (t : DirTree)
    (path : List String) (V₁ : List (List String)) (r : List String) (V₂ : List (List String))
    (e : GoError)
    (hV : gomodVisit w t path = V₁ ++ r :: V₂)
    (h1 : ∀ q ∈ V₁, (g q).2 = none)
    (hr : (g r).2 = some e) (hd : errorsIs e .skipDir = false) :
    w.each g t path
      = ((V₁.flatMap fun q => (g q).1) ++ (g r).1,
         some (.wrapped ("in " ++ pathStr r) e)) := by
  cases t with
  | node gm cs =>
    cases gm with
    | none =>
      have hf := eachF_firstErr w g cs path V₁ r V₂ e (by simpa [gomodVisit] using hV) h1 hr hd
      simpa [Walker.each] using hf
    | some s =>
      have hV' : path :: gomodVisitF w cs path = V₁ ++ r :: V₂ := by
        simpa [gomodVisit] using hV
      cases V₁ with
      | nil =>
        simp only [List.nil_append] at hV'
        obtain ⟨hpr, hV2⟩ := List.cons.injEq .. ▸ hV'
        subst hpr
        rcases hgp : g path with ⟨ev, rr⟩
        rw [hgp] at hr
        simp only at hr
        subst hr
        simp [Walker.each, hgp, hd]
      | cons v V₁' =>
        have hV'' : path = v ∧ gomodVisitF w cs path = V₁' ++ r :: V₂ := by
          have : path :: gomodVisitF w cs path = v :: (V₁' ++ r :: V₂) := by simpa using hV'
          exact ⟨(List.cons.injEq .. ▸ this).1, (List.cons.injEq .. ▸ this).2⟩
        obtain ⟨hv, hL⟩ := hV''
        subst hv
        have hp : (g path).2 = none := h1 path (by simp)
        rcases hgp : g path with ⟨ev, rr⟩
        rw [hgp] at hp
        simp only at hp
        subst hp
        have hf := eachF_firstErr w g cs path V₁' r V₂ e hL
          (fun q hq => h1 q (by simp [hq])) hr hd
        simp [Walker.each, hgp, hf]

theorem eachF_firstErr (w : Walker) (g : List String → List ε × Option GoError) (cs : Forest)
    (path : List String) (V₁ : List (List String)) (r : List String) (V₂ : List (List String))
    (e : GoError)
    (hV : gomodVisitF w cs path = V₁ ++ r :: V₂)
    (h1 : ∀ q ∈ V₁, (g q).2 = none)
    (hr : (g r).2 = some e) (hd : errorsIs e .skipDir = false) :
    w.eachF g cs path
      = ((V₁.flatMap fun q => (g q).1) ++ (g r).1,
         some (.wrapped ("in " ++ pathStr r) e)) := by
  cases cs with
  | nil =>
    exfalso
    have h0 : ([] : List (List String)) = V₁ ++ r :: V₂ := by
      rw [← hV]; simp [gomodVisitF]
    cases V₁ <;> simp at h0
  | cons n t rest =>
    by_cases hs : skipName w n = true
    · have hf := eachF_firstErr w g rest path V₁ r V₂ e
        (by simpa [gomodVisitF, hs] using hV) h1 hr hd
      simpa [Walker.eachF, hs] using hf
    · have hb : skipName w n = false := by simpa using hs
      have hV' : gomodVisit w t (path ++ [n]) ++ gomodVisitF w rest path = V₁ ++ r :: V₂ := by
        simpa [gomodVisitF, hb] using hV
      rcases List.append_eq_append_iff.mp hV' with ⟨a, ha1, ha2⟩ | ⟨c, hc1, hc2⟩
      · have hbt := each_benign w g t (path ++ [n])
          (fun q hq => h1 q (by rw [ha1]; exact List.mem_append_left _ hq))
        have hfr := eachF_firstErr w g rest path a r V₂ e ha2
          (fun q hq => h1 q (by rw [ha1]; exact List.mem_append_right _ hq)) hr hd
        simp [Walker.eachF, hb, hbt, hfr, ha1]
      · cases c with
        | nil =>
          have hL : gomodVisit w t (path ++ [n]) = V₁ := by simpa using hc1
          have hR : gomodVisitF w rest path = r :: V₂ := by simpa using hc2.symm
          have hbt := each_benign w g t (path ++ [n])
            (fun q hq => h1 q (by rw [← hL]; exact hq))
          have hfr := eachF_firstErr w g rest path [] r V₂ e (by simpa using hR)
            (by simp) hr hd
          simp [Walker.eachF, hb, hbt, hfr, hL]
        | cons x c' =>
          have hx : r = x ∧ V₂ = c' ++ gomodVisitF w rest path := by
            have : r :: V₂ = x :: (c' ++ gomodVisitF w rest path) := by simpa using hc2
            exact ⟨(List.cons.injEq .. ▸ this).1, (List.cons.injEq .. ▸ this).2⟩
          obtain ⟨hxr, hV2⟩ := hx
          subst hxr
          have htf := each_firstErr w g t (path ++ [n]) V₁ r c' e (by simpa using hc1) h1 hr hd
          simp [Walker.eachF, hb, htf]
end

mutual
theorem each_ev_src (w : Walker) (g : List String → List ε × Option GoError) (t : DirTree)
    (path : List String) :
    ∀ ev ∈ (w.each g t path).1,
      ∃ s, (∀ c ∈ s, skipName w c = false) ∧ ev ∈ (g (path ++ s)).1 := by
  cases t with
  | node gm cs =>
    cases gm with
    | none =>
      intro ev hev
      rw [show w.each g (.node none cs) path = w.eachF g cs path from rfl] at hev
      obtain ⟨n, s, _, hn, hs, hg⟩ := eachF_ev_src w g cs path ev hev
      refine ⟨n :: s, fun c hc => ?_, hg⟩
      rcases List.mem_cons.mp hc with h | h
      · exact h ▸ hn
      · exact hs c h
    | some m =>
      intro ev hev
      rcases hgp : g path with ⟨ev0, rr⟩
      have hself : ev ∈ ev0 → ∃ s, (∀ c ∈ s, skipName w c = false) ∧ ev ∈ (g (path ++ s)).1 :=
        fun h => ⟨[], by simp, by simpa [hgp] using h⟩
      cases rr with
      | none =>
        have htr : (w.each g (.node (some m) cs) path).1 = ev0 ++ (w.eachF g cs path).1 := by
          simp [Walker.each, hgp]
        rw [htr] at hev
        rcases List.mem_append.mp hev with h | h
        · exact hself h
        · obtain ⟨n, s, _, hn, hs, hg⟩ := eachF_ev_src w g cs path ev h
          exact ⟨n :: s, fun c hc => by
            rcases List.mem_cons.mp hc with h' | h'
            · exact h' ▸ hn
            · exact hs c h', hg⟩
      | some e =>
        have htr : (w.each g (.node (some m) cs) path).1 = ev0 := by
          by_cases hsd : errorsIs e .skipDir = true
          · simp [Walker.each, hgp, hsd]
          · simp [Walker.each, hgp, hsd]
        rw [htr] at hev
        exact hself hev

theorem eachF_ev_src (w : Walker) (g : List String → List ε × Option GoError) (cs : Forest)
    (path : List String) :
    ∀ ev ∈ (w.eachF g cs path).1,
      ∃ n s, n ∈ cs.names ∧ skipName w n = false ∧ (∀ c ∈ s, skipName w c = false) ∧
        ev ∈ (g (path ++ n :: s)).1 := by
  cases cs with
  | nil => intro ev hev; simp [Walker.eachF] at hev
  | cons n t rest =>
    intro ev hev
    by_cases hs : skipName w n = true
    · rw [show w.eachF g (.cons n t rest) path = w.eachF g rest path by simp [Walker.eachF, hs]] at hev
      obtain ⟨n', s, hmem, hn', hs', hg⟩ := eachF_ev_src w g rest path ev hev
      exact ⟨n', s, by simp [Forest.names, hmem], hn', hs', hg⟩
    · have hb : skipName w n = false := by simpa using hs
      rcases ht : w.each g t (path ++ [n]) with ⟨tr, rr⟩
      have hsub : ev ∈ tr → ∃ n' s, n' ∈ (Forest.cons n t rest).names ∧ skipName w n' = false ∧
          (∀ c ∈ s, skipName w c = false) ∧ ev ∈ (g (path ++ n' :: s)).1 := by
        intro h
        obtain ⟨s, hss, hg⟩ := each_ev_src w g t (path ++ [n]) ev (by rw [ht]; exact h)
        exact ⟨n, s, by simp [Forest.names], hb, hss, by simpa using hg⟩
      cases rr with
      | some e =>
        rw [show (w.eachF g (.cons n t rest) path).1 = tr by simp [Walker.eachF, hb, ht]] at hev
        exact hsub hev
      | none =>
        rw [show (w.eachF g (.cons n t rest) path).1 = tr ++ (w.eachF g rest path).1 by
          simp [Walker.eachF, hb, ht]] at hev
        rcases List.mem_append.mp hev with h | h
        · exact hsub h
        · obtain ⟨n', s, hmem, hn', hs', hg⟩ := eachF_ev_src w g rest path ev h
          exact ⟨n', s, by simp [Forest.names, hmem], hn', hs', hg⟩
end

theorem eachP_visits_shape (w : Walker) (cb : List String → Option GoError) (t : DirTree)
    (path : List String) :
    ∀ p ∈ (w.eachP cb t path).1, ∃ s, p = path ++ s ∧ ∀ c ∈ s, skipName w c = false := by
  intro p hp
  obtain ⟨s, hs, hg⟩ := each_ev_src w (fun q => ([q], cb q)) t path p hp
  simp only [List.mem_singleton] at hg
  exact ⟨s, hg, hs⟩

theorem eachPF_visits_shape (w : Walker) (cb : List String → Option GoError) (cs : Forest)
    (path : List String) :
    ∀ p ∈ (w.eachPF cb cs path).1,
      ∃ n s, n ∈ cs.names ∧ skipName w n = false ∧ p = path ++ n :: s := by
  intro p hp
  obtain ⟨n, s, hmem, hn, _, hg⟩ := eachF_ev_src w (fun q => ([q], cb q)) cs path p hp
  simp only [List.mem_singleton] at hg
  exact ⟨n, s, hmem, hn, hg⟩

mutual
theorem eachP_skipAll (w : Walker) (cb : List String → Option GoError) (t : DirTree)
    (path p : List String) (hcb : cb p = some .skipAll)
    (hp : p ∈ (w.eachP cb t path).1) :
    ∃ l₁, (w.eachP cb t path).1 = l₁ ++ [p] ∧ p ∉ l₁ ∧
      (w.eachP cb t path).2 = some (.wrapped ("in " ++ pathStr p) .skipAll) := by
  cases t with
  | node gm cs =>
    cases gm with
    | none =>
      have hE : w.eachP cb (.node none cs) path = w.eachPF cb cs path := rfl
      rw [hE] at hp ⊢
      exact eachPF_skipAll w cb cs path p hcb hp
    | some m =>
      rcases hc : cb path with _ | e
      · have hE : w.eachP cb (.node (some m) cs) path
            = (path :: (w.eachPF cb cs path).1, (w.eachPF cb cs path).2) := by
          simp [Walker.eachP, Walker.eachPF, Walker.each, hc]
        rw [hE] at hp ⊢
        have hne : p ≠ path := by
          intro h; rw [h, hc] at hcb; exact Option.noConfusion hcb
        have hpf : p ∈ (w.eachPF cb cs path).1 := by
          rcases List.mem_cons.mp hp with h | h
          · exact absurd h hne
          · exact h
        obtain ⟨l₁, h1, h2, h3⟩ := eachPF_skipAll w cb cs path p hcb hpf
        refine ⟨path :: l₁, by simp [h1], ?_, h3⟩
        intro hmem
        rcases List.mem_cons.mp hmem with h | h
        · exact hne h
        · exact h2 h
      · by_cases hsd : errorsIs e .skipDir = true
        · have hE : w.eachP cb (.node (some m) cs) path = ([path], none) := by
            simp [Walker.eachP, Walker.each, hc, hsd]
          rw [hE] at hp
          have hpp : p = path := by simpa using hp
          rw [hpp, hc] at hcb
          have he : e = .skipAll := Option.some.inj hcb
          rw [he] at hsd
          exact absurd hsd (by decide)
        · have hsd' : errorsIs e .skipDir = false := by simpa using hsd
          have hE : w.eachP cb (.node (some m) cs) path
              = ([path], some (.wrapped ("in " ++ pathStr path) e)) := by
            simp [Walker.eachP, Walker.each, hc, hsd']
          rw [hE] at hp ⊢
          have hpp : p = path := by simpa using hp
          subst hpp
          rw [hc] at hcb
          have he : e = .skipAll := Option.some.inj hcb
          subst he
          exact ⟨[], by simp, by simp, rfl⟩
  termination_by sizeOf t

theorem eachPF_skipAll (w : Walker) (cb : List String → Option GoError) (cs : Forest)
    (path p : List String) (hcb : cb p = some .skipAll)
    (hp : p ∈ (w.eachPF cb cs path).1) :
    ∃ l₁, (w.eachPF cb cs path).1 = l₁ ++ [p] ∧ p ∉ l₁ ∧
      (w.eachPF cb cs path).2 = some (.wrapped ("in " ++ pathStr p) .skipAll) := by
  cases cs with
  | nil => simp [Walker.eachPF, Walker.eachF] at hp
  | cons n t rest =>
    by_cases hs : skipName w n = true
    · have hE : w.eachPF cb (.cons n t rest) path = w.eachPF cb rest path := by
        simp [Walker.eachPF, Walker.eachF, hs]
      rw [hE] at hp ⊢
      exact eachPF_skipAll w cb rest path p hcb hp
    · have hb : skipName w n = false := by simpa using hs
      rcases ht : w.each (fun q => ([q], cb q)) t (path ++ [n]) with ⟨tr, rr⟩
      have htP : w.eachP cb t (path ++ [n]) = (tr, rr) := ht
      cases rr with
      | some e =>
        have hE : w.eachPF cb (.cons n t rest) path = (tr, some e) := by
          simp [Walker.eachPF, Walker.eachF, hb, ht]
        rw [hE] at hp ⊢
        obtain ⟨l₁, h1, h2, h3⟩ := eachP_skipAll w cb t (path ++ [n]) p hcb (by rw [htP]; exact hp)
        rw [htP] at h1 h3
        exact ⟨l₁, h1, h2, by simpa using h3⟩
      | none =>
        have hE : w.eachPF cb (.cons n t rest) path
            = (tr ++ (w.eachPF cb rest path).1, (w.eachPF cb rest path).2) := by
          simp [Walker.eachPF, Walker.eachF, hb, ht]
        rw [hE] at hp ⊢
        have hnotr : p ∉ tr := by
          intro hmem
          obtain ⟨_, _, _, h3⟩ := eachP_skipAll w cb t (path ++ [n]) p hcb (by rw [htP]; exact hmem)
          rw [htP] at h3
          exact Option.noConfusion h3
        have hpf : p ∈ (w.eachPF cb rest path).1 := by
          rcases List.mem_append.mp hp with h | h
          · exact absurd h hnotr
          · exact h
        obtain ⟨l₁, h1, h2, h3⟩ := eachPF_skipAll w cb rest path p hcb hpf
        refine ⟨tr ++ l₁, by simp [h1], ?_, h3⟩
        intro hmem
        rcases List.mem_append.mp hmem with h | h
        · exact hnotr h
        · exact h2 h
  termination_by sizeOf cs
end

mutual
theorem eachP_skipDir_nodesc (w : Walker) (cb : List String → Option GoError) (t : DirTree)
    (path D : List String) (e : GoError) (hcbD : cb D = some e)
    (hsd : errorsIs e .skipDir = true) (hwf : t.wf = true)
    (hD : D ∈ (w.eachP cb t path).1) :
    ∀ p ∈ (w.eachP cb t path).1, D <+: p → p = D := by
  cases t with
  | node gm cs =>
    have hwfF : cs.wfF = true := by simpa [DirTree.wf] using hwf
    cases gm with
    | none =>
      have hE : w.eachP cb (.node none cs) path = w.eachPF cb cs path := rfl
      rw [hE] at hD ⊢
      exact eachPF_skipDir_nodesc w cb cs path D e hcbD hsd hwfF hD
    | some m =>
      rcases hc : cb path with _ | e'
      · have hE : w.eachP cb (.node (some m) cs) path
            = (path :: (w.eachPF cb cs path).1, (w.eachPF cb cs path).2) := by
          simp [Walker.eachP, Walker.eachPF, Walker.each, hc]
        rw [hE] at hD ⊢
        have hne : D ≠ path := by
          intro h; rw [h, hc] at hcbD; exact Option.noConfusion hcbD
        have hDF : D ∈ (w.eachPF cb cs path).1 := by
          rcases List.mem_cons.mp hD with h | h
          · exact absurd h hne
          · exact h
        intro p hp hDp
        rcases List.mem_cons.mp hp with h | h
        · exfalso
          obtain ⟨n, s, _, _, hsh⟩ := eachPF_visits_shape w cb cs path D hDF
          obtain ⟨k, hk⟩ := hDp
          rw [h, hsh] at hk
          have := congrArg List.length hk
          simp at this
        · exact eachPF_skipDir_nodesc w cb cs path D e hcbD hsd hwfF hDF p h hDp
      · have hE : (w.eachP cb (.node (some m) cs) path).1 = [path] := by
          by_cases hsd' : errorsIs e' .skipDir = true
          · simp [Walker.eachP, Walker.each, hc, hsd']
          · simp [Walker.eachP, Walker.each, hc, hsd']
        rw [hE] at hD ⊢
        have hDp : D = path := by simpa using hD
        intro p hp _
        have hpp : p = path := by simpa using hp
        rw [hpp, hDp]
  termination_by sizeOf t

theorem eachPF_skipDir_nodesc (w : Walker) (cb : List String → Option GoError) (cs : Forest)
    (path D : List String) (e : GoError) (hcbD : cb D = some e)
    (hsd : errorsIs e .skipDir = true) (hwf : cs.wfF = true)
    (hD : D ∈ (w.eachPF cb cs path).1) :
    ∀ p ∈ (w.eachPF cb cs path).1, D <+: p → p = D := by
  cases cs with
  | nil => simp [Walker.eachPF, Walker.eachF] at hD
  | cons n t rest =>
    have hwf' : (n ∉ rest.names ∧ t.wf = true) ∧ rest.wfF = true := by
      simpa [Forest.wfF, Bool.and_eq_true] using hwf
    obtain ⟨⟨hnmem, hwt⟩, hwr⟩ := hwf'
    by_cases hs : skipName w n = true
    · have hE : w.eachPF cb (.cons n t rest) path = w.eachPF cb rest path := by
        simp [Walker.eachPF, Walker.eachF, hs]
      rw [hE] at hD ⊢
      exact eachPF_skipDir_nodesc w cb rest path D e hcbD hsd hwr hD
    · have hb : skipName w n = false := by simpa using hs
      rcases ht : w.each (fun q => ([q], cb q)) t (path ++ [n]) with ⟨tr, rr⟩
      have htP : w.eachP cb t (path ++ [n]) = (tr, rr) := ht
      cases rr with
      | some e' =>
        have hE : w.eachPF cb (.cons n t rest) path = (tr, some e') := by
          simp [Walker.eachPF, Walker.eachF, hb, ht]
        rw [hE] at hD ⊢
        have := eachP_skipDir_nodesc w cb t (path ++ [n]) D e hcbD hsd hwt
          (by rw [htP]; exact hD)
        intro p hp hDp
        exact this p (by rw [htP]; exact hp) hDp
      | none =>
        have hE : w.eachPF cb (.cons n t rest) path
            = (tr ++ (w.eachPF cb rest path).1, (w.eachPF cb rest path).2) := by
          simp [Walker.eachPF, Walker.eachF, hb, ht]
        rw [hE] at hD ⊢
        intro p hp hDp
        rcases List.mem_append.mp hD with hDt | hDr
        · rcases List.mem_append.mp hp with hpt | hpr
          · exact eachP_skipDir_nodesc w cb t (path ++ [n]) D e hcbD hsd hwt
              (by rw [htP]; exact hDt) p (by rw [htP]; exact hpt) hDp
          · exfalso
            obtain ⟨sD, hshD, _⟩ := eachP_visits_shape w cb t (path ++ [n]) D
              (by rw [htP]; exact hDt)
            obtain ⟨n', sp, hn'mem, _, hshp⟩ := eachPF_visits_shape w cb rest path p hpr
            obtain ⟨k, hk⟩ := hDp
            rw [hshD, hshp] at hk
            have hk' : path ++ (n :: (sD ++ k)) = path ++ n' :: sp := by
              simpa [List.append_assoc] using hk
            have hcons : n :: (sD ++ k) = n' :: sp := List.append_cancel_left hk'
            have : n = n' := (List.cons.injEq .. ▸ hcons).1
            exact hnmem (this ▸ hn'mem)
        · rcases List.mem_append.mp hp with hpt | hpr
          · exfalso
            obtain ⟨n', sD, hn'mem, _, hshD⟩ := eachPF_visits_shape w cb rest path D hDr
            obtain ⟨sp, hshp, _⟩ := eachP_visits_shape w cb t (path ++ [n]) p
              (by rw [htP]; exact hpt)
            obtain ⟨k, hk⟩ := hDp
            rw [hshD, hshp] at hk
            have hk' : path ++ (n' :: (sD ++ k)) = path ++ n :: sp := by
              simpa [List.append_assoc] using hk
            have hcons : n' :: (sD ++ k) = n :: sp := List.append_cancel_left hk'
            have hnn : n' = n := (List.cons.injEq .. ▸ hcons).1
            exact hnmem (hnn ▸ hn'mem)
          · exact eachPF_skipDir_nodesc w cb rest path D e hcbD hsd hwr hDr p hpr hDp
  termination_by sizeOf cs
end

theorem gomodVisit_eq_trace (w : Walker) (t : DirTree) (path : List String) :
    (w.eachP (fun _ => none) t path).1 = gomodVisit w t path := by
  have h := each_benign w (fun q => (([q], none) : List (List String) × Option GoError)) t path
    (fun q _ => rfl)
  rw [Walker.eachP, h]
  simp

theorem gomodVisitF_eq_trace (w : Walker) (cs : Forest) (path : List String) :
    (w.eachPF (fun _ => none) cs path).1 = gomodVisitF w cs path := by
  have h := eachF_benign w (fun q => (([q], none) : List (List String) × Option GoError)) cs path
    (fun q _ => rfl)
  rw [Walker.eachPF, h]
  simp

theorem gomodVisit_shape (w : Walker) (t : DirTree) (path : List String) :
    ∀ p ∈ gomodVisit w t path, ∃ s, p = path ++ s ∧ ∀ c ∈ s, skipName w c = false := by
  intro p hp
  exact eachP_visits_shape w (fun _ => none) t path p (by rw [gomodVisit_eq_trace]; exact hp)

theorem gomodVisitF_shape (w : Walker) (cs : Forest) (path : List String) :
    ∀ p ∈ gomodVisitF w cs path,
      ∃ n s, n ∈ cs.names ∧ skipName w n = false ∧ p = path ++ n :: s := by
  intro p hp
  exact eachPF_visits_shape w (fun _ => none) cs path p (by rw [gomodVisitF_eq_trace]; exact hp)

mutual
theorem gomodVisit_nodup (w : Walker) (t : DirTree) (path : List String)
    (hwf : t.wf = true) : (gomodVisit w t path).Nodup := by
  cases t with
  | node gm cs =>
    have hwfF : cs.wfF = true := by simpa [DirTree.wf] using hwf
    cases gm with
    | none => simpa [gomodVisit] using gomodVisitF_nodup w cs path hwfF
    | some m =>
      have hF := gomodVisitF_nodup w cs path hwfF
      have hnot : path ∉ gomodVisitF w cs path := by
        intro hmem
        obtain ⟨n, s, _, _, hsh⟩ := gomodVisitF_shape w cs path path hmem
        have := congrArg List.length hsh
        simp at this
      simpa [gomodVisit, List.nodup_cons] using ⟨hnot, hF⟩
  termination_by sizeOf t

theorem gomodVisitF_nodup (w : Walker) (cs : Forest) (path : List String)
    (hwf : cs.wfF = true) : (gomodVisitF w cs path).Nodup := by
  cases cs with
  | nil => simp [gomodVisitF]
  | cons n t rest =>
    have hwf' : (n ∉ rest.names ∧ t.wf = true) ∧ rest.wfF = true := by
      simpa [Forest.wfF, Bool.and_eq_true] using hwf
    obtain ⟨⟨hnmem, hwt⟩, hwr⟩ := hwf'
    by_cases hs : skipName w n = true
    · simpa [gomodVisitF, hs] using gomodVisitF_nodup w rest path hwr
    · have hb : skipName w n = false := by simpa using hs
      have hT := gomodVisit_nodup w t (path ++ [n]) hwt
      have hR := gomodVisitF_nodup w rest path hwr
      have hdisj : (gomodVisit w t (path ++ [n])).Disjoint (gomodVisitF w rest path) := by
        intro a haT haR
        obtain ⟨s, hshT, _⟩ := gomodVisit_shape w t (path ++ [n]) a haT
        obtain ⟨n', s', hn'mem, _, hshR⟩ := gomodVisitF_shape w rest path a haR
        rw [hshT] at hshR
        have hk' : path ++ (n :: s) = path ++ n' :: s' := by
          simpa [List.append_assoc] using hshR
        have hcons : n :: s = n' :: s' := List.append_cancel_left hk'
        have hnn : n = n' := (List.cons.injEq .. ▸ hcons).1
        exact hnmem (hnn ▸ hn'mem)
      simpa [gomodVisitF, hb] using List.Nodup.append hT hR hdisj
  termination_by sizeOf cs
end

/-! ### Lemmas about the joined package-error accumulation -/

theorem unwrapsTo_self (x : GoError) : unwrapsTo x x = true := by
  cases x <;> simp [unwrapsTo]

theorem goJoin_unwraps_self (acc : Option GoError) (x : GoError) :
    unwrapsTo (goJoin acc x) x = true := by
  cases acc <;> simp [goJoin, unwrapsTo, unwrapsTo_self]

theorem goJoin_unwraps_mono (a x : GoError) (y : GoError) (h : unwrapsTo a y = true) :
    unwrapsTo (goJoin (some a) x) y = true := by
  simp [goJoin, unwrapsTo, h]

theorem foldJoin_pres (pp : String) (es : List String) (a y : GoError)
    (h : unwrapsTo a y = true) :
    ∃ a', es.foldl (fun b pe => some (goJoin b (.pkgLoadE pp (.msg pe)))) (some a) = some a'
      ∧ unwrapsTo a' y = true := by
  induction es generalizing a with
  | nil => exact ⟨a, rfl, h⟩
  | cons pe es ih =>
    simp only [List.foldl_cons]
    exact ih _ (goJoin_unwraps_mono a _ y h)

theorem joinPkgErrs_pres (pkg : Package) (acc : Option GoError) (a y : GoError)
    (hacc : acc = some a) (h : unwrapsTo a y = true) :
    ∃ a', joinPkgErrs pkg acc = some a' ∧ unwrapsTo a' y = true := by
  subst hacc
  rw [joinPkgErrs]
  exact foldJoin_pres pkg.pkgPath pkg.errors a y h

theorem joinPkgErrs_mem (pkg : Package) (acc : Option GoError) (pe : String)
    (hpe : pe ∈ pkg.errors) :
    ∃ a', joinPkgErrs pkg acc = some a' ∧
      unwrapsTo a' (.pkgLoadE pkg.pkgPath (.msg pe)) = true := by
  rw [joinPkgErrs]
  revert hpe
  generalize pkg.errors = es
  intro hpe
  induction es generalizing acc with
  | nil => cases hpe
  | cons x es ih =>
    simp only [List.foldl_cons]
    rcases List.mem_cons.mp hpe with h | h
    · subst h
      exact foldJoin_pres pkg.pkgPath es (goJoin acc (.pkgLoadE pkg.pkgPath (.msg pe)))
        (.pkgLoadE pkg.pkgPath (.msg pe)) (goJoin_unwraps_self acc _)
    · exact ih _ h

theorem pkgsFold_pres (pkgs : List Package) (acc : Option GoError) (a y : GoError)
    (hacc : acc = some a) (h : unwrapsTo a y = true) :
    ∃ a', pkgs.foldl (fun acc pkg => joinPkgErrs pkg acc) acc = some a'
      ∧ unwrapsTo a' y = true := by
  induction pkgs generalizing acc a with
  | nil => exact ⟨a, by simpa using hacc, h⟩
  | cons pkg pkgs ih =>
    simp only [List.foldl_cons]
    obtain ⟨a1, h1, h2⟩ := joinPkgErrs_pres pkg acc a y hacc h
    exact ih _ _ h1 h2

theorem pkgsJoinedError_mem (pkgs : List Package) (pkg : Package) (pe : String)
    (hp : pkg ∈ pkgs) (hpe : pe ∈ pkg.errors) :
    ∃ agg, pkgsJoinedError pkgs = some agg ∧
      unwrapsTo agg (.pkgLoadE pkg.pkgPath (.msg pe)) = true := by
  rw [pkgsJoinedError]
  suffices hgen : ∀ acc, ∃ agg,
      pkgs.foldl (fun acc pkg => joinPkgErrs pkg acc) acc = some agg ∧
        unwrapsTo agg (.pkgLoadE pkg.pkgPath (.msg pe)) = true by
    exact hgen none
  induction pkgs with
  | nil => cases hp
  | cons q pkgs ih =>
    intro acc
    simp only [List.foldl_cons]
    rcases List.mem_cons.mp hp with h | h
    · subst h
      obtain ⟨a1, h1, h2⟩ := joinPkgErrs_mem pkg acc pe hpe
      exact pkgsFold_pres pkgs _ a1 _ h1 h2
    · exact ih h (joinPkgErrs q acc)

theorem errorsIs_goJoin (acc : Option GoError) (x t : GoError)
    (hacc : ∀ a, acc = some a → errorsIs a t = false) (hx : errorsIs x t = false) :
    errorsIs (goJoin acc x) t = false := by
  cases acc with
  | none => simpa [goJoin, errorsIs] using hx
  | some a => simp [goJoin, errorsIs, hacc a rfl, hx]

theorem foldJoin_sentinel (pp : String) (es : List String) (acc : Option GoError) (t : GoError)
    (ht : ∀ m, errorsIs (GoError.msg m) t = false)
    (hacc : ∀ a, acc = some a → errorsIs a t = false) :
    ∀ a', es.foldl (fun b pe => some (goJoin b (.pkgLoadE pp (.msg pe)))) acc = some a' →
      errorsIs a' t = false := by
  induction es generalizing acc with
  | nil => intro a' h; exact hacc a' h
  | cons pe es ih =>
    intro a' h
    simp only [List.foldl_cons] at h
    refine ih _ ?_ a' h
    intro a ha
    have haj : a = goJoin acc (.pkgLoadE pp (.msg pe)) := (Option.some.inj ha).symm
    subst haj
    refine errorsIs_goJoin acc _ t hacc ?_
    simpa [errorsIs] using ht pe

theorem pkgsJoinedError_sentinel (pkgs : List Package) (t : GoError)
    (ht : ∀ m, errorsIs (GoError.msg m) t = false) :
    ∀ agg, pkgsJoinedError pkgs = some agg → errorsIs agg t = false := by
  rw [pkgsJoinedError]
  suffices hgen : ∀ acc, (∀ a, acc = some a → errorsIs a t = false) →
      ∀ agg, pkgs.foldl (fun acc pkg => joinPkgErrs pkg acc) acc = some agg →
        errorsIs agg t = false by
    exact hgen none (fun a ha => Option.noConfusion ha)
  induction pkgs with
  | nil => intro acc hacc agg h; exact hacc agg h
  | cons q pkgs ih =>
    intro acc hacc agg h
    simp only [List.foldl_cons] at h
    refine ih _ ?_ agg h
    intro a ha
    rw [joinPkgErrs] at ha
    exact foldJoin_sentinel q.pkgPath q.errors acc t ht hacc a ha

/-! ### Claim theorems -/

theorem skipName_false_iff (w : Walker) (c : String) :
    skipName w c = false ↔
      strHasPre "." c = false ∧ strHasPre "_" c = false ∧
      (c = "vendor" → w.includeVendor = true) ∧ (c = "testdata" → w.includeTestdata = true) := by
  simp only [skipName, Bool.or_eq_false_iff, Bool.and_eq_false_iff, Bool.not_eq_false',
    beq_eq_false_iff_ne, ne_eq]
  constructor
  · rintro ⟨⟨⟨h1, h2⟩, h3⟩, h4⟩
    refine ⟨h1, h2, ?_, ?_⟩
    · intro hc
      exact h3.resolve_right (fun hn => hn hc)
    · intro hc
      exact h4.resolve_right (fun hn => hn hc)
  · rintro ⟨h1, h2, h3, h4⟩
    refine ⟨⟨⟨h1, h2⟩, ?_⟩, ?_⟩
    · by_cases hc : c = "vendor"
      · exact Or.inl (h3 hc)
      · exact Or.inr hc
    · by_cases hc : c = "testdata"
      · exact Or.inl (h4 hc)
      · exact Or.inr hc

/-- C1, as stated, is false on the code: the skip rules prune subtrees that
contain manifests, so the number of callback invocations can be smaller than
the number of manifest directories.  Concretely, a tree whose only `go.mod`
lies inside a child named `.git` has one manifest directory but `Each` (here
with both include-flags set, so no flag could save it) invokes the callback
zero times. -/
theorem c1_counterexample :
    countGomod (DirTree.node none
      (Forest.cons ".git" (DirTree.node (some "module m") Forest.nil) Forest.nil)) = 1 ∧
    (Walker.EachP { includeVendor := true, includeTestdata := true }
      (fun _ => none)
      (DirTree.node none
        (Forest.cons ".git" (DirTree.node (some "module m") Forest.nil) Forest.nil))
      ["root"]).1.length = 0 := by
  decide

/-- C1 (amended): for every well-formed directory tree, `Walker.Each` with a
callback returning no skip/stop signal and no error invokes the callback
exactly once per *non-pruned* manifest directory — the manifest directories
reachable without passing through a skipped entry — in depth-first pre-order
(the trace equals `gomodVisit`), each with a distinct path that is a
descendant of (or equal to) the root. -/
theorem c1_amended (w : Walker) (cb : List String → Option GoError) (t : DirTree)
    (root : List String) (hb : ∀ p, cb p = none) (hwf : t.wf = true) :
    w.EachP cb t root = (gomodVisit w t root, none) ∧
    (gomodVisit w t root).Nodup ∧
    ∀ p ∈ gomodVisit w t root, ∃ s, p = root ++ s ∧ ∀ c ∈ s, skipName w c = false := by
  have hE := each_benign w (fun q => ([q], cb q)) t root (fun q _ => by simp [hb q])
  have htr : w.each (fun q => ([q], cb q)) t root = (gomodVisit w t root, none) := by
    rw [hE]; congr 1; simp
  refine ⟨?_, gomodVisit_nodup w t root hwf, gomodVisit_shape w t root⟩
  simp [Walker.EachP, Walker.Each, htr]

theorem c1_witness :
    Walker.EachP {} (fun _ => none) (DirTree.node (some "m") Forest.nil) ["r"]
      = (gomodVisit {} (DirTree.node (some "m") Forest.nil) ["r"], none) ∧
    (gomodVisit {} (DirTree.node (some "m") Forest.nil) ["r"]).Nodup ∧
    ∀ p ∈ gomodVisit {} (DirTree.node (some "m") Forest.nil) ["r"],
      ∃ s, p = ["r"] ++ s ∧ ∀ c ∈ s, skipName {} c = false :=
  c1_amended {} (fun _ => none) (DirTree.node (some "m") Forest.nil) ["r"]
    (fun _ => rfl) (by decide)

/-- C2: if the callback returns the skip-subtree signal (`filepath.SkipDir`,
possibly wrapped) at a visited directory `D` of a well-formed tree, then no
strict descendant of `D` is ever visited (part 1), and the branch of `D`
completes without error while the traversal of the following siblings is
exactly what it would have been anyway (part 2). -/
theorem c2_skip_subtree (w : Walker) (cb : List String → Option GoError) (e : GoError)
    (hsd : errorsIs e .skipDir = true) :
    (∀ t root D, cb D = some e → t.wf = true → D ∈ (w.EachP cb t root).1 →
      ∀ p ∈ (w.EachP cb t root).1, D <+: p → p = D) ∧
    (∀ path n cs rest content, skipName w n = false → cb (path ++ [n]) = some e →
      w.eachPF cb (Forest.cons n (DirTree.node (some content) cs) rest) path
        = ((path ++ [n]) :: (w.eachPF cb rest path).1, (w.eachPF cb rest path).2)) := by
  constructor
  · intro t root D hcbD hwf hD p hp hDp
    have hD' : D ∈ (w.eachP cb t root).1 := by rw [Walker.EachP, Each_fst] at hD; exact hD
    have hp' : p ∈ (w.eachP cb t root).1 := by rw [Walker.EachP, Each_fst] at hp; exact hp
    exact eachP_skipDir_nodesc w cb t root D e hcbD hsd hwf hD' p hp' hDp
  · intro path n cs rest content hskip hcb
    have hnode : w.each (fun q => ([q], cb q)) (.node (some content) cs) (path ++ [n])
        = ([path ++ [n]], none) := by
      simp [Walker.each, hcb, hsd]
    simp [Walker.eachPF, Walker.eachF, hskip, hnode]

theorem c2_witness :
    Walker.eachPF {} (fun _ => some GoError.skipDir)
        (Forest.cons "a"
          (DirTree.node (some "m")
            (Forest.cons "b" (DirTree.node (some "m") Forest.nil) Forest.nil))
          (Forest.cons "c" (DirTree.node (some "m") Forest.nil) Forest.nil)) ["r"]
      = ((["r"] ++ ["a"])
          :: (Walker.eachPF {} (fun _ => some GoError.skipDir)
              (Forest.cons "c" (DirTree.node (some "m") Forest.nil) Forest.nil) ["r"]).1,
         (Walker.eachPF {} (fun _ => some GoError.skipDir)
            (Forest.cons "c" (DirTree.node (some "m") Forest.nil) Forest.nil) ["r"]).2) :=
  (c2_skip_subtree {} (fun _ => some .skipDir) .skipDir (by decide)).2 ["r"] "a"
    (Forest.cons "b" (DirTree.node (some "m") Forest.nil) Forest.nil)
    (Forest.cons "c" (DirTree.node (some "m") Forest.nil) Forest.nil) "m"
    (by decide) rfl

/-- C3: if the callback returns the stop-all signal (`filepath.SkipAll`) at a
visited directory `p`, the outermost `Walker.Each` returns `nil` (the abort
is absorbed into clean success), and no further callback invocation occurs
anywhere after that point: `p` is the last entry of the invocation trace. -/
theorem c3_stop_all (w : Walker) (cb : List String → Option GoError) (t : DirTree)
    (root p : List String) (hcb : cb p = some .skipAll)
    (hp : p ∈ (w.EachP cb t root).1) :
    (w.EachP cb t root).2 = none ∧
    ∃ l₁, (w.EachP cb t root).1 = l₁ ++ [p] ∧ p ∉ l₁ := by
  have hp' : p ∈ (w.eachP cb t root).1 := by rw [Walker.EachP, Each_fst] at hp; exact hp
  obtain ⟨l₁, h1, h2, h3⟩ := eachP_skipAll w cb t root p hcb hp'
  constructor
  · rcases hE : w.each (fun q => ([q], cb q)) t root with ⟨tr, r⟩
    have hr : r = some (.wrapped ("in " ++ pathStr p) .skipAll) := by
      rw [Walker.eachP, hE] at h3; exact h3
    subst hr
    simp [Walker.EachP, Walker.Each, hE, errorsIs]
  · exact ⟨l₁, by rw [Walker.EachP, Each_fst]; exact h1, h2⟩

theorem c3_witness :
    (Walker.EachP {} (fun _ => some GoError.skipAll)
      (DirTree.node (some "m") Forest.nil) ["r"]).2 = none ∧
    ∃ l₁, (Walker.EachP {} (fun _ => some GoError.skipAll)
      (DirTree.node (some "m") Forest.nil) ["r"]).1 = l₁ ++ [["r"]] ∧ ["r"] ∉ l₁ :=
  c3_stop_all {} (fun _ => some .skipAll) (DirTree.node (some "m") Forest.nil) ["r"] ["r"]
    rfl (by decide)

/-- C4: every path the traversal visits (invokes its callback at) is the root
followed by components none of which is skipped: no component beyond the root
begins with `.` or `_`, is `vendor` without `IncludeVendor`, or is `testdata`
without `IncludeTestdata`.  In particular directories inside such entries are
never visited, at any nesting depth, for any callback. -/
theorem c4_skip_rules (w : Walker) (cb : List String → Option GoError) (t : DirTree)
    (root : List String) (p : List String) (hp : p ∈ (w.EachP cb t root).1) :
    ∃ s, p = root ++ s ∧ ∀ c ∈ s,
      strHasPre "." c = false ∧ strHasPre "_" c = false ∧
      (c = "vendor" → w.includeVendor = true) ∧ (c = "testdata" → w.includeTestdata = true) := by
  have hp' : p ∈ (w.eachP cb t root).1 := by rw [Walker.EachP, Each_fst] at hp; exact hp
  obtain ⟨s, hs, hns⟩ := eachP_visits_shape w cb t root p hp'
  exact ⟨s, hs, fun c hc => (skipName_false_iff w c).mp (hns c hc)⟩

theorem c4_witness :
    ∃ s, (["r", "sub"] : List String) = ["r"] ++ s ∧ ∀ c ∈ s,
      strHasPre "." c = false ∧ strHasPre "_" c = false ∧
      (c = "vendor" → Walker.includeVendor {} = true) ∧
      (c = "testdata" → Walker.includeTestdata {} = true) :=
  c4_skip_rules {} (fun _ => none)
    (DirTree.node none (Forest.cons "sub" (DirTree.node (some "m") Forest.nil) Forest.nil))
    ["r"] ["r", "sub"] (by decide)

/-- C10: the name-based skip rules apply only to child entries, never to the
traversal root itself: for any configuration and any root directory — in
particular one whose own base name is `vendor`, `testdata`, or begins with
`.` or `_` (hypothesis `_hn`) — `Each` still tests the root for a manifest,
invokes the callback there when one is present (the head of the visit list),
and descends into its eligible subdirectories exactly as `gomodVisitF`
prescribes. -/
theorem c10_root_exempt (w : Walker) (cb : List String → Option GoError) (gm : Option String)
    (cs : Forest) (n : String) (_hn : skipName w n = true) (hb : ∀ p, cb p = none) :
    (w.EachP cb (.node gm cs) [n]).2 = none ∧
    (w.EachP cb (.node gm cs) [n]).1
      = (if gm.isSome then [[n]] else []) ++ gomodVisitF w cs [n] := by
  have hE := each_benign w (fun q => ([q], cb q)) (.node gm cs) [n] (fun q _ => by simp [hb q])
  have htr : w.each (fun q => ([q], cb q)) (.node gm cs) [n]
      = (gomodVisit w (.node gm cs) [n], none) := by
    rw [hE]; congr 1; simp
  constructor
  · simp [Walker.EachP, Walker.Each, htr]
  · simp [Walker.EachP, Walker.Each, htr, gomodVisit]

theorem c10_witness :
    (Walker.EachP {} (fun _ => none)
      (DirTree.node (some "m") (Forest.cons "sub" (DirTree.node (some "m") Forest.nil) Forest.nil))
      ["vendor"]).2 = none ∧
    (Walker.EachP {} (fun _ => none)
      (DirTree.node (some "m") (Forest.cons "sub" (DirTree.node (some "m") Forest.nil) Forest.nil))
      ["vendor"]).1
      = (if (some "m").isSome then [["vendor"]] else [])
          ++ gomodVisitF {} (Forest.cons "sub" (DirTree.node (some "m") Forest.nil) Forest.nil)
              ["vendor"] :=
  c10_root_exempt {} (fun _ => none) (some "m")
    (Forest.cons "sub" (DirTree.node (some "m") Forest.nil) Forest.nil) "vendor"
    (by decide) (fun _ => rfl)

/-- C5: if the `go.mod` at a discovered module root `r` fails to parse (or its
bytes cannot be read), `EachGomod` aborts the whole traversal with an error
carrying the manifest path as wrapping context (`"reading <path>"` or
`"parsing <path>"`), and the user callback is invoked neither for `r` nor for
any root discovered afterward: every recorded callback invocation is at a
root strictly before `r` in the visit order. -/
theorem c5_parse_abort {μ : Type} (w : Walker)
    (parse parseLax : String → String → Except String μ)
    (fsRead : List String → Except String String) (t : DirTree) (root : List String)
    (userCb : List String → μ → Option GoError)
    (V₁ : List (List String)) (r : List String) (V₂ : List (List String))
    (hV : gomodVisit w t root = V₁ ++ r :: V₂)
    (hpre : ∀ q ∈ V₁, ∃ c mf, fsRead (q ++ ["go.mod"]) = .ok c ∧
      (if w.parseLax then parseLax else parse) (pathStr (q ++ ["go.mod"])) c = .ok mf ∧
      userCb q mf = none)
    (hr : (∃ er, fsRead (r ++ ["go.mod"]) = .error er) ∨
      (∃ c er, fsRead (r ++ ["go.mod"]) = .ok c ∧
        (if w.parseLax then parseLax else parse) (pathStr (r ++ ["go.mod"])) c = .error er)) :
    ∃ err, (w.EachGomod fsRead parse parseLax t root
        (fun q mf => ([Ev.cb2 q mf], userCb q mf))).2 = some err ∧
      (("reading " ++ pathStr (r ++ ["go.mod"])) ∈ contexts err ∨
       ("parsing " ++ pathStr (r ++ ["go.mod"])) ∈ contexts err) ∧
      ∀ p mf, Ev.cb2 p mf ∈ (w.EachGomod fsRead parse parseLax t root
        (fun q mf => ([Ev.cb2 q mf], userCb q mf))).1 → p ∈ V₁ := by
  have hgq : ∀ q ∈ V₁, ∃ mfq,
      w.withGomod fsRead parse parseLax q (fun q mf => ([Ev.cb2 q mf], userCb q mf))
        = ([Ev.parsed q mfq, Ev.cb2 q mfq], none) := by
    intro q hq
    obtain ⟨c, mf, h1, h2, h3⟩ := hpre q hq
    exact ⟨mf, by simp [Walker.withGomod, h1, h2, h3]⟩
  obtain ⟨ctx, er, hgr, hctx⟩ : ∃ ctx er,
      w.withGomod fsRead parse parseLax r (fun q mf => ([Ev.cb2 q mf], userCb q mf))
        = ([], some (.wrapped ctx (.msg er)))
      ∧ (ctx = "reading " ++ pathStr (r ++ ["go.mod"])
         ∨ ctx = "parsing " ++ pathStr (r ++ ["go.mod"])) := by
    rcases hr with ⟨er, h⟩ | ⟨c, er, h1, h2⟩
    · exact ⟨_, er, by simp [Walker.withGomod, h], Or.inl rfl⟩
    · exact ⟨_, er, by simp [Walker.withGomod, h1, h2], Or.inr rfl⟩
  have hfe := each_firstErr w
    (fun subdir => w.withGomod fsRead parse parseLax subdir
      (fun q mf => ([Ev.cb2 q mf], userCb q mf)))
    t root V₁ r V₂ (.wrapped ctx (.msg er)) hV
    (fun q hq => by
      obtain ⟨mfq, h⟩ := hgq q hq
      show (w.withGomod fsRead parse parseLax q
        (fun q mf => ([Ev.cb2 q mf], userCb q mf))).2 = none
      rw [h])
    (by
      show (w.withGomod fsRead parse parseLax r
        (fun q mf => ([Ev.cb2 q mf], userCb q mf))).2 = _
      rw [hgr])
    (by simp [errorsIs])
  refine ⟨.wrapped ("in " ++ pathStr r) (.wrapped ctx (.msg er)), ?_, ?_, ?_⟩
  · show (w.Each _ t root).2 = _
    rw [Walker.Each]
    simp only [hfe]
    simp [errorsIs]
  · rcases hctx with h | h <;> simp [contexts, h]
  · intro p mf hmem
    have htr : (w.EachGomod fsRead parse parseLax t root
        (fun q mf => ([Ev.cb2 q mf], userCb q mf))).1
        = (V₁.flatMap fun q =>
            (w.withGomod fsRead parse parseLax q
              (fun q mf => ([Ev.cb2 q mf], userCb q mf))).1)
          ++ (w.withGomod fsRead parse parseLax r
              (fun q mf => ([Ev.cb2 q mf], userCb q mf))).1 := by
      rw [Walker.EachGomod, Each_fst, hfe]
    rw [htr, hgr] at hmem
    simp only [List.append_nil] at hmem
    obtain ⟨q, hq, hqmem⟩ := List.mem_flatMap.mp hmem
    obtain ⟨mfq, hgq'⟩ := hgq q hq
    rw [hgq'] at hqmem
    simp only [List.mem_cons, List.not_mem_nil, or_false] at hqmem
    rcases hqmem with h1 | h2
    · exact absurd h1 (by intro hcon; cases hcon)
    · have hpq : p = q := by injection h2
      exact hpq ▸ hq

theorem c5_witness :
    ∃ err, (Walker.EachGomod {}
        (fun p => if p = ["r", "go.mod"] then Except.ok "good"
          else if p = ["r", "a", "go.mod"] then Except.ok "bad" else Except.error "nofile")
        (fun _ c => if c = "good" then Except.ok (0 : Nat) else Except.error "syntax")
        (fun _ c => if c = "good" then Except.ok (0 : Nat) else Except.error "syntax")
        (DirTree.node (some "good")
          (Forest.cons "a" (DirTree.node (some "bad") Forest.nil) Forest.nil))
        ["r"] (fun q mf => ([Ev.cb2 q mf], none))).2 = some err ∧
      (("reading " ++ pathStr (["r", "a"] ++ ["go.mod"])) ∈ contexts err ∨
       ("parsing " ++ pathStr (["r", "a"] ++ ["go.mod"])) ∈ contexts err) ∧
      ∀ p mf, Ev.cb2 p mf ∈ (Walker.EachGomod {}
        (fun p => if p = ["r", "go.mod"] then Except.ok "good"
          else if p = ["r", "a", "go.mod"] then Except.ok "bad" else Except.error "nofile")
        (fun _ c => if c = "good" then Except.ok (0 : Nat) else Except.error "syntax")
        (fun _ c => if c = "good" then Except.ok (0 : Nat) else Except.error "syntax")
        (DirTree.node (some "good")
          (Forest.cons "a" (DirTree.node (some "bad") Forest.nil) Forest.nil))
        ["r"] (fun q mf => ([Ev.cb2 q mf], none))).1 → p ∈ [["r"]] :=
  c5_parse_abort {}
    (fun _ c => if c = "good" then Except.ok (0 : Nat) else Except.error "syntax")
    (fun _ c => if c = "good" then Except.ok (0 : Nat) else Except.error "syntax")
    (fun p => if p = ["r", "go.mod"] then Except.ok "good"
      else if p = ["r", "a", "go.mod"] then Except.ok "bad" else Except.error "nofile")
    (DirTree.node (some "good")
      (Forest.cons "a" (DirTree.node (some "bad") Forest.nil) Forest.nil))
    ["r"] (fun _ _ => none) [["r"]] ["r", "a"] []
    (by decide)
    (by
      intro q hq
      simp only [List.mem_singleton] at hq
      subst hq
      exact ⟨"good", 0, rfl, rfl, rfl⟩)
    (Or.inr ⟨"bad", "syntax", rfl, rfl⟩)

theorem loadEachStep_err {μ : Type} (w : Walker) (load : LoadConfig → Except String (List Package))
    (conf : LoadConfig) (fL : List String → List Package → List (Ev μ) × Option GoError)
    (subdir : List String) (e : String) (h : load conf = .error e) :
    loadEachStep w load conf fL subdir
      = ([.loadCall subdir conf],
         some (.wrapped ("loading packages in " ++ pathStr subdir) (.msg e))) := by
  simp [loadEachStep, h]

theorem loadEachStep_agg {μ : Type} (w : Walker) (load : LoadConfig → Except String (List Package))
    (conf : LoadConfig) (fL : List String → List Package → List (Ev μ) × Option GoError)
    (subdir : List String) (pkgs : List Package) (agg : GoError) (h : load conf = .ok pkgs)
    (hf : w.failOnPackageErrors = true) (ha : pkgsJoinedError pkgs = some agg) :
    loadEachStep w load conf fL subdir = ([.loadCall subdir conf], some agg) := by
  simp [loadEachStep, h, hf, ha]

theorem loadEachStep_ok {μ : Type} (w : Walker) (load : LoadConfig → Except String (List Package))
    (conf : LoadConfig) (fL : List String → List Package → List (Ev μ) × Option GoError)
    (subdir : List String) (pkgs : List Package) (h : load conf = .ok pkgs)
    (hok : pkgsJoinedError pkgs = none ∨ w.failOnPackageErrors = false) :
    loadEachStep w load conf fL subdir
      = (.loadCall subdir conf :: (fL subdir pkgs).1, (fL subdir pkgs).2) := by
  rcases hok with hnone | hff
  · cases hfail : w.failOnPackageErrors <;> simp [loadEachStep, h, hfail, hnone]
  · simp [loadEachStep, h, hff]

/-- C6: with `FailOnPackageErrors` set, if the packages loaded at the first
discovered module root collectively report one or more per-package errors,
`LoadEach` joins all of them into a single aggregated error in which every
constituent `PackageLoadError{PkgPath, Err}` remains reachable by unwrapping,
returns it as a fatal traversal error (wrapped with the root's path by the
walker), and never invokes the callback: the only recorded event is the
loader invocation. -/
theorem c6_fail_on_pkg_errors {μ : Type} (w : Walker)
    (load : LoadConfig → Except String (List Package)) (t : DirTree) (root : List String)
    (userRes : List String → List Package → Option GoError)
    (r : List String) (V₂ : List (List String)) (pkgs : List Package)
    (hfail : w.failOnPackageErrors = true)
    (hV : gomodVisit w t root = r :: V₂)
    (hload : load (loadEachConf w root) = .ok pkgs)
    (hpe : ∃ pkg ∈ pkgs, ∃ pe, pe ∈ pkg.errors) :
    ∃ agg, pkgsJoinedError pkgs = some agg ∧
      w.LoadEach (μ := μ) load t root (fun p pk => ([Ev.cbLoad p pk], userRes p pk))
        = ([Ev.loadCall r (loadEachConf w root)],
           some (.wrapped ("in " ++ pathStr r) agg)) ∧
      (∀ pkg ∈ pkgs, ∀ pe ∈ pkg.errors,
        unwrapsTo agg (.pkgLoadE pkg.pkgPath (.msg pe)) = true) ∧
      ∀ p pk, Ev.cbLoad p pk ∉
        (w.LoadEach (μ := μ) load t root (fun p pk => ([Ev.cbLoad p pk], userRes p pk))).1 := by
  obtain ⟨pkg0, hpkg0, pe0, hpe0⟩ := hpe
  obtain ⟨agg, hagg, _⟩ := pkgsJoinedError_mem pkgs pkg0 pe0 hpkg0 hpe0
  have hsd : errorsIs agg .skipDir = false :=
    pkgsJoinedError_sentinel pkgs _ (fun m => by simp [errorsIs]) agg hagg
  have hsa : errorsIs agg .skipAll = false :=
    pkgsJoinedError_sentinel pkgs _ (fun m => by simp [errorsIs]) agg hagg
  have hstep := loadEachStep_agg (μ := μ) w load (loadEachConf w root)
    (fun p pk => ([Ev.cbLoad p pk], userRes p pk)) r pkgs agg hload hfail hagg
  have hfe := each_firstErr w
    (loadEachStep (μ := μ) w load (loadEachConf w root)
      (fun p pk => ([Ev.cbLoad p pk], userRes p pk)))
    t root [] r V₂ agg (by simpa using hV) (by simp) (by rw [hstep]) hsd
  have hpair : w.LoadEach (μ := μ) load t root (fun p pk => ([Ev.cbLoad p pk], userRes p pk))
      = ([Ev.loadCall r (loadEachConf w root)],
         some (.wrapped ("in " ++ pathStr r) agg)) := by
    show w.Each _ t root = _
    rw [Walker.Each]
    simp only [hfe]
    simp [hstep, errorsIs, hsa]
  refine ⟨agg, hagg, hpair, ?_, ?_⟩
  · intro pkg hpkg pe hpe'
    obtain ⟨agg', ha', hr'⟩ := pkgsJoinedError_mem pkgs pkg pe hpkg hpe'
    rw [hagg] at ha'
    have heq : agg = agg' := Option.some.inj ha'
    rw [heq]
    exact hr'
  · intro p pk hmem
    rw [hpair] at hmem
    simp at hmem

theorem c6_witness :
    ∃ agg, pkgsJoinedError [⟨"pkgA", ["errA1", "errA2"]⟩] = some agg ∧
      Walker.LoadEach (μ := Unit) { failOnPackageErrors := true }
          (fun _ => Except.ok [⟨"pkgA", ["errA1", "errA2"]⟩])
          (DirTree.node (some "m") Forest.nil) ["r"]
          (fun p pk => ([Ev.cbLoad p pk], none))
        = ([Ev.loadCall ["r"] (loadEachConf { failOnPackageErrors := true } ["r"])],
           some (.wrapped ("in " ++ pathStr ["r"]) agg)) ∧
      (∀ pkg ∈ [(⟨"pkgA", ["errA1", "errA2"]⟩ : Package)], ∀ pe ∈ pkg.errors,
        unwrapsTo agg (.pkgLoadE pkg.pkgPath (.msg pe)) = true) ∧
      ∀ p pk, Ev.cbLoad p pk ∉
        (Walker.LoadEach (μ := Unit) { failOnPackageErrors := true }
          (fun _ => Except.ok [⟨"pkgA", ["errA1", "errA2"]⟩])
          (DirTree.node (some "m") Forest.nil) ["r"]
          (fun p pk => ([Ev.cbLoad p pk], none))).1 :=
  c6_fail_on_pkg_errors { failOnPackageErrors := true }
    (fun _ => Except.ok [⟨"pkgA", ["errA1", "errA2"]⟩])
    (DirTree.node (some "m") Forest.nil) ["r"] (fun _ _ => none)
    ["r"] [] [⟨"pkgA", ["errA1", "errA2"]⟩]
    rfl (by decide) rfl ⟨⟨"pkgA", ["errA1", "errA2"]⟩, by decide, "errA1", by decide⟩

/-- C7, as stated, is false on the code: `LoadEach` sets the config's `Dir`
once, to the traversal root, before walking (`conf.Dir = dir`), and passes
that same config to `packages.Load` at every discovered root.  Concretely,
with a nested module at `root/a`, the loader invocation recorded at
`["root", "a"]` carries a config whose `Dir` is `"root"`, not `"root/a"`. -/
theorem c7_counterexample :
    Ev.loadCall ["root", "a"] (loadEachConf {} ["root"])
      ∈ (Walker.LoadEach (μ := Unit) {} (fun _ => Except.ok [])
          (DirTree.node (some "m")
            (Forest.cons "a" (DirTree.node (some "m") Forest.nil) Forest.nil))
          ["root"] (fun p pk => ([Ev.cbLoad p pk], none))).1 ∧
    (loadEachConf {} ["root"]).dir = "root" ∧
    pathStr ["root", "a"] = "root/a" ∧ "root" ≠ "root/a" := by
  decide

/-- C7 (amended): for each discovered module root the loader is invoked once,
in visit order, but every invocation receives the *same* configuration
`loadEachConf w root`, whose working directory (`Dir`) is the traversal
root's path — as the `Walker.LoadConfig` documentation states — and not the
discovered root's path. -/
theorem c7_amended {μ : Type} (w : Walker)
    (load : LoadConfig → Except String (List Package)) (t : DirTree) (root : List String)
    (userRes : List String → List Package → Option GoError) (pkgs : List Package)
    (hload : load (loadEachConf w root) = .ok pkgs)
    (hok : pkgsJoinedError pkgs = none ∨ w.failOnPackageErrors = false)
    (hbenign : ∀ p, userRes p pkgs = none) :
    w.LoadEach (μ := μ) load t root (fun p pk => ([Ev.cbLoad p pk], userRes p pk))
      = ((gomodVisit w t root).flatMap fun q =>
          [Ev.loadCall q (loadEachConf w root), Ev.cbLoad q pkgs], none) ∧
    (loadEachConf w root).dir = pathStr root ∧
    ∀ q c, Ev.loadCall q c ∈ (w.LoadEach (μ := μ) load t root
        (fun p pk => ([Ev.cbLoad p pk], userRes p pk))).1 →
      c = loadEachConf w root ∧ q ∈ gomodVisit w t root := by
  have hstep : ∀ subdir, loadEachStep (μ := μ) w load (loadEachConf w root)
      (fun p pk => ([Ev.cbLoad p pk], userRes p pk)) subdir
      = ([Ev.loadCall subdir (loadEachConf w root), Ev.cbLoad subdir pkgs],
         userRes subdir pkgs) := by
    intro subdir
    rw [loadEachStep_ok (μ := μ) w load (loadEachConf w root)
      (fun p pk => ([Ev.cbLoad p pk], userRes p pk)) subdir pkgs hload hok]
  have hE := each_benign w
    (loadEachStep (μ := μ) w load (loadEachConf w root)
      (fun p pk => ([Ev.cbLoad p pk], userRes p pk))) t root
    (fun q _ => by rw [hstep q]; exact hbenign q)
  have hpair : w.LoadEach (μ := μ) load t root (fun p pk => ([Ev.cbLoad p pk], userRes p pk))
      = ((gomodVisit w t root).flatMap fun q =>
          [Ev.loadCall q (loadEachConf w root), Ev.cbLoad q pkgs], none) := by
    show w.Each _ t root = _
    rw [Walker.Each]
    simp only [hE]
    simp [hstep]
  refine ⟨hpair, by simp [loadEachConf], ?_⟩
  intro q c hmem
  rw [hpair] at hmem
  obtain ⟨q', hq', hin⟩ := List.mem_flatMap.mp hmem
  simp only [List.mem_cons, List.not_mem_nil, or_false] at hin
  rcases hin with h | h
  · injection h with h1 h2
    exact ⟨h2, h1 ▸ hq'⟩
  · exact Ev.noConfusion h

theorem c7_witness :
    Walker.LoadEach (μ := Unit) {} (fun _ => Except.ok [])
        (DirTree.node (some "m")
          (Forest.cons "a" (DirTree.node (some "m") Forest.nil) Forest.nil))
        ["root"] (fun p pk => ([Ev.cbLoad p pk], none))
      = ((gomodVisit {}
            (DirTree.node (some "m")
              (Forest.cons "a" (DirTree.node (some "m") Forest.nil) Forest.nil))
            ["root"]).flatMap fun q =>
          [Ev.loadCall q (loadEachConf {} ["root"]), Ev.cbLoad q []], none) ∧
    (loadEachConf {} ["root"]).dir = pathStr ["root"] ∧
    ∀ q c, Ev.loadCall q c ∈ (Walker.LoadEach (μ := Unit) {} (fun _ => Except.ok [])
        (DirTree.node (some "m")
          (Forest.cons "a" (DirTree.node (some "m") Forest.nil) Forest.nil))
        ["root"] (fun p pk => ([Ev.cbLoad p pk], none))).1 →
      c = loadEachConf {} ["root"] ∧ q ∈ gomodVisit {}
        (DirTree.node (some "m")
          (Forest.cons "a" (DirTree.node (some "m") Forest.nil) Forest.nil))
        ["root"] :=
  c7_amended {} (fun _ => Except.ok [])
    (DirTree.node (some "m") (Forest.cons "a" (DirTree.node (some "m") Forest.nil) Forest.nil))
    ["root"] (fun _ _ => none) [] rfl (Or.inl rfl) (fun _ => rfl)

/-- C8: the configuration defaulting of `LoadEach`, in source order: a zero
config is replaced by `DefaultLoadConfig` (whose mode is `DefaultLoadMode`);
a non-zero config with zero mode keeps its other fields and gets
`DefaultLoadMode`; otherwise the caller's config is kept — in every case with
`Dir` set to the traversal root — and `LoadEach` consults the loader only at
this resulting configuration, so it is the config (mode included) actually
passed to `packages.Load`. -/
theorem c8_load_config_default {μ : Type} (w : Walker) (t : DirTree) (root : List String)
    (fL : List String → List Package → List (Ev μ) × Option GoError) :
    (isZeroConfig w.loadConfig = true →
      loadEachConf w root = { DefaultLoadConfig with dir := pathStr root }) ∧
    (isZeroConfig w.loadConfig = false → w.loadConfig.mode = 0 →
      loadEachConf w root = { w.loadConfig with mode := DefaultLoadMode, dir := pathStr root }) ∧
    (isZeroConfig w.loadConfig = false → w.loadConfig.mode ≠ 0 →
      loadEachConf w root = { w.loadConfig with dir := pathStr root }) ∧
    ∀ load₁ load₂ : LoadConfig → Except String (List Package),
      load₁ (loadEachConf w root) = load₂ (loadEachConf w root) →
      w.LoadEach (μ := μ) load₁ t root fL = w.LoadEach (μ := μ) load₂ t root fL := by
  refine ⟨?_, ?_, ?_, ?_⟩
  · intro h
    simp [loadEachConf, h, DefaultLoadConfig, DefaultLoadMode]
  · intro h h0
    simp [loadEachConf, h, h0]
  · intro h h0
    have hb : (w.loadConfig.mode == 0) = false := by simpa using h0
    simp [loadEachConf, h, hb]
  · intro load₁ load₂ hEq
    have hstep : loadEachStep (μ := μ) w load₁ (loadEachConf w root) fL
        = loadEachStep (μ := μ) w load₂ (loadEachConf w root) fL := by
      funext subdir
      simp only [loadEachStep, hEq]
    show w.Each _ t root = w.Each _ t root
    rw [hstep]

theorem c8_witness :
    loadEachConf {} ["r"] = { DefaultLoadConfig with dir := pathStr ["r"] } ∧
    loadEachConf { loadConfig := { mode := 0, dir := "", tests := true } } ["r"]
      = { ({ mode := 0, dir := "", tests := true } : LoadConfig) with
          mode := DefaultLoadMode, dir := pathStr ["r"] } ∧
    loadEachConf { loadConfig := { mode := 7, dir := "", tests := false } } ["r"]
      = { ({ mode := 7, dir := "", tests := false } : LoadConfig) with dir := pathStr ["r"] } :=
  ⟨(c8_load_config_default (μ := Unit) {} (DirTree.node none Forest.nil) ["r"]
      (fun _ _ => ([], none))).1 (by decide),
   (c8_load_config_default (μ := Unit) { loadConfig := { mode := 0, dir := "", tests := true } }
      (DirTree.node none Forest.nil) ["r"] (fun _ _ => ([], none))).2.1 (by decide) rfl,
   (c8_load_config_default (μ := Unit) { loadConfig := { mode := 7, dir := "", tests := false } }
      (DirTree.node none Forest.nil) ["r"] (fun _ _ => ([], none))).2.2.1 (by decide) (by decide)⟩

/-- C9: `LoadEachGomod` composes the unit loader over the manifest parser:
per discovered root the order is loading (with its error-aggregation policy),
then manifest parsing, then the three-argument callback — visible in the
benign-run trace `[loadCall, parsed, cb3]` per root (part c) — a fatal error
of either inner step aborts the whole walk before the callback runs (parts a
and b), the composite callback's control signal equals the user callback's
(part d), and a stop-all signal from the callback is absorbed into clean
success exactly as in the plain traversal (part e). -/
theorem c9_load_each_gomod {μ : Type} (w : Walker)
    (load : LoadConfig → Except String (List Package))
    (fsRead : List String → Except String String)
    (parse parseLax : String → String → Except String μ) (t : DirTree) (root : List String)
    (u : List String → μ → List Package → Option GoError) :
    (∀ r V₂ e, gomodVisit w t root = r :: V₂ →
      load (loadEachConf w root) = .error e →
      w.LoadEachGomod load fsRead parse parseLax t root
          (fun q mf pk => ([Ev.cb3 q mf pk], u q mf pk))
        = ([Ev.loadCall r (loadEachConf w root)],
           some (.wrapped ("in " ++ pathStr r)
             (.wrapped ("loading packages in " ++ pathStr r) (.msg e))))) ∧
    (∀ r V₂ pkgs c er, gomodVisit w t root = r :: V₂ →
      load (loadEachConf w root) = .ok pkgs → pkgsJoinedError pkgs = none →
      fsRead (r ++ ["go.mod"]) = .ok c →
      (if w.parseLax then parseLax else parse) (pathStr (r ++ ["go.mod"])) c = .error er →
      w.LoadEachGomod load fsRead parse parseLax t root
          (fun q mf pk => ([Ev.cb3 q mf pk], u q mf pk))
        = ([Ev.loadCall r (loadEachConf w root)],
           some (.wrapped ("in " ++ pathStr r)
             (.wrapped ("parsing " ++ pathStr (r ++ ["go.mod"])) (.msg er))))) ∧
    (∀ pkgs (mfAt : List String → μ),
      load (loadEachConf w root) = .ok pkgs → pkgsJoinedError pkgs = none →
      (∀ q ∈ gomodVisit w t root, ∃ cq, fsRead (q ++ ["go.mod"]) = .ok cq ∧
        (if w.parseLax then parseLax else parse) (pathStr (q ++ ["go.mod"])) cq
          = .ok (mfAt q)) →
      (∀ q ∈ gomodVisit w t root, u q (mfAt q) pkgs = none) →
      w.LoadEachGomod load fsRead parse parseLax t root
          (fun q mf pk => ([Ev.cb3 q mf pk], u q mf pk))
        = ((gomodVisit w t root).flatMap fun q =>
            [Ev.loadCall q (loadEachConf w root), Ev.parsed q (mfAt q),
             Ev.cb3 q (mfAt q) pkgs], none)) ∧
    (∀ q pkgs mf c, fsRead (q ++ ["go.mod"]) = .ok c →
      (if w.parseLax then parseLax else parse) (pathStr (q ++ ["go.mod"])) c = .ok mf →
      (w.withGomod fsRead parse parseLax q
        (fun s m => ([Ev.cb3 s m pkgs], u s m pkgs))).2 = u q mf pkgs) ∧
    (∀ r V₂ pkgs c mf, gomodVisit w t root = r :: V₂ →
      load (loadEachConf w root) = .ok pkgs → pkgsJoinedError pkgs = none →
      fsRead (r ++ ["go.mod"]) = .ok c →
      (if w.parseLax then parseLax else parse) (pathStr (r ++ ["go.mod"])) c = .ok mf →
      u r mf pkgs = some .skipAll →
      (w.LoadEachGomod load fsRead parse parseLax t root
        (fun q mf pk => ([Ev.cb3 q mf pk], u q mf pk))).2 = none) := by
  have hwg_ok : ∀ q pkgs' c mf, fsRead (q ++ ["go.mod"]) = .ok c →
      (if w.parseLax then parseLax else parse) (pathStr (q ++ ["go.mod"])) c = .ok mf →
      w.withGomod fsRead parse parseLax q (fun s m => ([Ev.cb3 s m pkgs'], u s m pkgs'))
        = ([Ev.parsed q mf, Ev.cb3 q mf pkgs'], u q mf pkgs') := by
    intro q pkgs' c mf h1 h2
    simp [Walker.withGomod, h1, h2]
  have hwg_err : ∀ q pkgs' c er, fsRead (q ++ ["go.mod"]) = .ok c →
      (if w.parseLax then parseLax else parse) (pathStr (q ++ ["go.mod"])) c = .error er →
      w.withGomod fsRead parse parseLax q (fun s m => ([Ev.cb3 s m pkgs'], u s m pkgs'))
        = ([], some (.wrapped ("parsing " ++ pathStr (q ++ ["go.mod"])) (.msg er))) := by
    intro q pkgs' c er h1 h2
    simp [Walker.withGomod, h1, h2]
  refine ⟨?_, ?_, ?_, ?_, ?_⟩
  · intro r V₂ e hV hload
    have hstep_r : loadEachStep (μ := μ) w load (loadEachConf w root)
        (fun subdir pkgs' => w.withGomod fsRead parse parseLax subdir
          (fun s m => ([Ev.cb3 s m pkgs'], u s m pkgs'))) r
        = ([Ev.loadCall r (loadEachConf w root)],
           some (.wrapped ("loading packages in " ++ pathStr r) (.msg e))) :=
      loadEachStep_err (μ := μ) w load (loadEachConf w root) _ r e hload
    have hfe := each_firstErr w
      (loadEachStep (μ := μ) w load (loadEachConf w root)
        (fun subdir pkgs' => w.withGomod fsRead parse parseLax subdir
          (fun s m => ([Ev.cb3 s m pkgs'], u s m pkgs'))))
      t root [] r V₂ (.wrapped ("loading packages in " ++ pathStr r) (.msg e))
      (by simpa using hV) (by simp) (by rw [hstep_r]) (by simp [errorsIs])
    show w.Each _ t root = _
    rw [Walker.Each]
    simp only [hfe]
    simp [hstep_r, errorsIs]
  · intro r V₂ pkgs c er hV hload hpe h1 h2
    have hstep_r : loadEachStep (μ := μ) w load (loadEachConf w root)
        (fun subdir pkgs' => w.withGomod fsRead parse parseLax subdir
          (fun s m => ([Ev.cb3 s m pkgs'], u s m pkgs'))) r
        = ([Ev.loadCall r (loadEachConf w root)],
           some (.wrapped ("parsing " ++ pathStr (r ++ ["go.mod"])) (.msg er))) := by
      cases hf : w.failOnPackageErrors <;>
        simp [loadEachStep, hload, hf, hpe, hwg_err r pkgs c er h1 h2]
    have hfe := each_firstErr w
      (loadEachStep (μ := μ) w load (loadEachConf w root)
        (fun subdir pkgs' => w.withGomod fsRead parse parseLax subdir
          (fun s m => ([Ev.cb3 s m pkgs'], u s m pkgs'))))
      t root [] r V₂ (.wrapped ("parsing " ++ pathStr (r ++ ["go.mod"])) (.msg er))
      (by simpa using hV) (by simp) (by rw [hstep_r]) (by simp [errorsIs])
    show w.Each _ t root = _
    rw [Walker.Each]
    simp only [hfe]
    simp [hstep_r, errorsIs]
  · intro pkgs mfAt hload hpe hparse hcb
    have hstep_q : ∀ q ∈ gomodVisit w t root,
        loadEachStep (μ := μ) w load (loadEachConf w root)
          (fun subdir pkgs' => w.withGomod fsRead parse parseLax subdir
            (fun s m => ([Ev.cb3 s m pkgs'], u s m pkgs'))) q
        = ([Ev.loadCall q (loadEachConf w root), Ev.parsed q (mfAt q),
            Ev.cb3 q (mfAt q) pkgs], none) := by
      intro q hq
      obtain ⟨cq, h1, h2⟩ := hparse q hq
      cases hf : w.failOnPackageErrors <;>
        simp [loadEachStep, hload, hf, hpe, hwg_ok q pkgs cq (mfAt q) h1 h2, hcb q hq]
    have hE := each_benign w
      (loadEachStep (μ := μ) w load (loadEachConf w root)
        (fun subdir pkgs' => w.withGomod fsRead parse parseLax subdir
          (fun s m => ([Ev.cb3 s m pkgs'], u s m pkgs'))))
      t root (fun q hq => by rw [hstep_q q hq])
    show w.Each _ t root = _
    rw [Walker.Each]
    simp only [hE]
    congr 1
    exact List.flatMap_congr fun q hq => by rw [hstep_q q hq]
  · intro q pkgs mf c h1 h2
    rw [hwg_ok q pkgs c mf h1 h2]
  · intro r V₂ pkgs c mf hV hload hpe h1 h2 hu
    have hstep_r : loadEachStep (μ := μ) w load (loadEachConf w root)
        (fun subdir pkgs' => w.withGomod fsRead parse parseLax subdir
          (fun s m => ([Ev.cb3 s m pkgs'], u s m pkgs'))) r
        = ([Ev.loadCall r (loadEachConf w root), Ev.parsed r mf, Ev.cb3 r mf pkgs],
           some .skipAll) := by
      cases hf : w.failOnPackageErrors <;>
        simp [loadEachStep, hload, hf, hpe, hwg_ok r pkgs c mf h1 h2, hu]
    have hfe := each_firstErr w
      (loadEachStep (μ := μ) w load (loadEachConf w root)
        (fun subdir pkgs' => w.withGomod fsRead parse parseLax subdir
          (fun s m => ([Ev.cb3 s m pkgs'], u s m pkgs'))))
      t root [] r V₂ .skipAll
      (by simpa using hV) (by simp) (by rw [hstep_r]) (by simp [errorsIs])
    show (w.Each _ t root).2 = _
    rw [Walker.Each]
    simp only [hfe]
    simp [errorsIs]

theorem c9_witness :
    Walker.LoadEachGomod {} (fun _ => Except.ok [])
        (fun p => if p = ["r", "go.mod"] then Except.ok "good" else Except.error "nofile")
        (fun _ c => if c = "good" then Except.ok (0 : Nat) else Except.error "syntax")
        (fun _ c => if c = "good" then Except.ok (0 : Nat) else Except.error "syntax")
        (DirTree.node (some "good") Forest.nil) ["r"]
        (fun q mf pk => ([Ev.cb3 q mf pk], none))
      = ((gomodVisit {} (DirTree.node (some "good") Forest.nil) ["r"]).flatMap fun q =>
          [Ev.loadCall q (loadEachConf {} ["r"]), Ev.parsed q (0 : Nat),
           Ev.cb3 q (0 : Nat) []], none) :=
  (c9_load_each_gomod {} (fun _ => Except.ok [])
    (fun p => if p = ["r", "go.mod"] then Except.ok "good" else Except.error "nofile")
    (fun _ c => if c = "good" then Except.ok (0 : Nat) else Except.error "syntax")
    (fun _ c => if c = "good" then Except.ok (0 : Nat) else Except.error "syntax")
    (DirTree.node (some "good") Forest.nil) ["r"]
    (fun _ _ _ => none)).2.2.1 [] (fun _ => 0) rfl rfl
    (by
      intro q hq
      simp only [gomodVisit, gomodVisitF, Option.isSome_some, if_true, List.append_nil,
        List.mem_singleton] at hq
      subst hq
      exact ⟨"good", rfl, rfl⟩)
    (fun _ _ => rfl)
